import Mathlib

/-!
Verification of the Levenshtein-distance core (`levenshtein_distance` and
`find_best_suggestion` from `src/rust/lance-core/src/levenshtein.rs`).

The two Rust functions are embedded as executable Lean definitions:
`levenshtein_distance` mirrors the two-row dynamic-programming loop of the
source (with `distRow` embedding the inner loop and `distLoop` the outer
loop), and `find_best_suggestion` mirrors the selection loop (`findLoop`).
Strings are handled through `String.data`, the list of Unicode scalar
values, matching Rust's `s.chars()`.

The mathematical yardsticks are `lev`, the textbook recursive edit
distance on character lists, and `EditStep` / `StepChain`, single edit
operations (insert, delete, substitute, each costing one) and chains
thereof.  We prove that the embedded DP computes `lev`, and that `lev` is
exactly the least length of an edit chain; symmetry, the triangle
inequality, the length bound and the zero law follow.
-/

namespace LanceLev

/-- Textbook recursive Levenshtein distance on character lists. -/
def lev : List Char → List Char → Nat
  | [], ys => ys.length
  | xs, [] => xs.length
  | x :: xs, y :: ys =>
      min (lev xs (y :: ys) + 1)
        (min (lev (x :: xs) ys + 1) (lev xs ys + (if x = y then 0 else 1)))
termination_by xs ys => xs.length + ys.length
decreasing_by
  all_goals simp [List.length_cons]
  all_goals omega

/-- A single edit operation on a character list: insert one character,
delete one character, or substitute one character, at any position. -/
inductive EditStep : List Char → List Char → Prop
  | ins (pre post : List Char) (c : Char) :
      EditStep (pre ++ post) (pre ++ c :: post)
  | del (pre post : List Char) (c : Char) :
      EditStep (pre ++ c :: post) (pre ++ post)
  | subst (pre post : List Char) (c c' : Char) :
      EditStep (pre ++ c :: post) (pre ++ c' :: post)

/-- `StepChain n u v`: `v` is reachable from `u` by exactly `n` single
edit operations. -/
inductive StepChain : Nat → List Char → List Char → Prop
  | refl (u : List Char) : StepChain 0 u u
  | step {n : Nat} {u v w : List Char} :
      EditStep u v → StepChain n v w → StepChain (n + 1) u w

/-- Edit distance through reversed arguments; the cell value of the
prefix-indexed dynamic-programming table. -/
def levFlip (p q : List Char) : Nat := lev p.reverse q.reverse

/-- The DP cells for string `p` against all strict extensions of prefix `r`
along the remaining characters `q`. -/
def rowOf (p r : List Char) : List Char → List Nat
  | [] => []
  | y :: q => levFlip p (r ++ [y]) :: rowOf p (r ++ [y]) q

/-- Embedding of the inner loop of `levenshtein_distance`:
`curr_row[j + 1] = (prev_row[j + 1] + 1).min(curr_row[j] + 1).min(prev_row[j] + cost)`.
`prev` holds the previous row from index `j` on (so its head is
`prev_row[j]`), `left` is `curr_row[j]`, and the result lists the cells
`curr_row[j+1] .. curr_row[n]`. -/
def distRow (s1_char : Char) : List Char → List Nat → Nat → List Nat
  | [], _, _ => []
  | s2_char :: s2rest, pdiag :: prest, left =>
      let cost := if s1_char = s2_char then 0 else 1
      let cell := min (min (prest.headD 0 + 1) (left + 1)) (pdiag + cost)
      cell :: distRow s1_char s2rest prest cell
  | _ :: _, [], _ => []

/-- Embedding of the outer loop of `levenshtein_distance`: one iteration
per character of `s1`, carrying the enumeration index `i` and the previous
row, producing the final row. -/
def distLoop (s2_chars : List Char) : List Char → Nat → List Nat → List Nat
  | [], _, prev_row => prev_row
  | s1_char :: rest, i, prev_row =>
      distLoop s2_chars rest (i + 1)
        ((i + 1) :: distRow s1_char s2_chars prev_row (i + 1))

/-- Embedding of `levenshtein_distance` from
`src/rust/lance-core/src/levenshtein.rs`: collect the characters of both
strings, short-circuit when either is empty, otherwise run the two-row
dynamic program and return the last cell of the final row. -/
def levenshtein_distance (s1 s2 : String) : Nat :=
  let s1_chars := s1.data
  let s2_chars := s2.data
  let m := s1_chars.length
  let n := s2_chars.length
  if m = 0 then n
  else if n = 0 then m
  else (distLoop s2_chars s1_chars 0 (List.range (n + 1))).getD n 0

/-- Embedding of the selection loop of `find_best_suggestion`: scan the
options in order, keeping the current best `(option, distance)` pair;
a candidate replaces the best only when it qualifies (distance at most the
threshold) and is strictly closer than the current best. -/
def findLoop (input : String) (threshold : Nat) :
    Option (String × Nat) → List String → Option (String × Nat)
  | best, [] => best
  | best, option :: rest =>
      let distance := levenshtein_distance input option
      let best' :=
        if distance ≤ threshold then
          match best with
          | none => some (option, distance)
          | some (b, best_distance) =>
              if distance < best_distance then some (option, distance)
              else some (b, best_distance)
        else best
      findLoop input threshold best' rest

/-- Embedding of `find_best_suggestion` from
`src/rust/lance-core/src/levenshtein.rs`: return `none` for an empty
input, otherwise scan the options with threshold
`input.chars().count() / 3` and return the best option, if any. -/
def find_best_suggestion (input : String) (options : List String) :
    Option String :=
  let input_len := input.data.length
  if input_len = 0 then none
  else
    let threshold := input_len / 3
    (findLoop input threshold none options).map Prod.fst

/-! ### Basic equations for `lev` -/

theorem lev_nil_left (ys : List Char) : lev [] ys = ys.length := by
  simp [lev]

theorem lev_nil_right (xs : List Char) : lev xs [] = xs.length := by
  cases xs <;> simp [lev]

theorem lev_cons_cons (x y : Char) (xs ys : List Char) :
    lev (x :: xs) (y :: ys) =
      min (lev xs (y :: ys) + 1)
        (min (lev (x :: xs) ys + 1) (lev xs ys + (if x = y then 0 else 1))) := by
  simp [lev]

theorem lev_self (xs : List Char) : lev xs xs = 0 := by
  induction xs with
  | nil => simp [lev_nil_left]
  | cons x xs ih =>
      rw [lev_cons_cons]
      simp [ih]

/-! ### One-character Lipschitz properties of `lev` -/

theorem lev_le_cons_right (xs ys : List Char) (y : Char) :
    lev xs (y :: ys) ≤ lev xs ys + 1 := by
  cases xs with
  | nil => simp [lev_nil_left]
  | cons x xs =>
      rw [lev_cons_cons]
      omega

theorem lev_le_cons_left (xs ys : List Char) (x : Char) :
    lev (x :: xs) ys ≤ lev xs ys + 1 := by
  cases ys with
  | nil => simp [lev_nil_right]
  | cons y ys =>
      rw [lev_cons_cons]
      omega

theorem lev_cons_left_le (xs ys : List Char) (x : Char) :
    lev xs ys ≤ lev (x :: xs) ys + 1 := by
  induction ys with
  | nil =>
      simp only [lev_nil_right, List.length_cons]
      omega
  | cons y ys ih =>
      have h3 := lev_le_cons_right xs ys y
      rw [lev_cons_cons]
      omega

theorem lev_cons_right_le (xs ys : List Char) (y : Char) :
    lev xs ys ≤ lev xs (y :: ys) + 1 := by
  induction xs with
  | nil =>
      simp only [lev_nil_left, List.length_cons]
      omega
  | cons x xs ih =>
      have h2 := lev_le_cons_left xs ys x
      rw [lev_cons_cons]
      omega

theorem lev_subst_head_le (xs : List Char) (c c' : Char) :
    ∀ w : List Char, lev (c :: xs) w ≤ lev (c' :: xs) w + 1 := by
  intro w
  induction w with
  | nil => simp [lev_nil_right]
  | cons z w ih =>
      rw [lev_cons_cons, lev_cons_cons]
      by_cases hc : c = z
      · by_cases hc' : c' = z
        · simp only [if_pos hc, if_pos hc']; omega
        · simp only [if_pos hc, if_neg hc']; omega
      · by_cases hc' : c' = z
        · simp only [if_neg hc, if_pos hc']; omega
        · simp only [if_neg hc, if_neg hc']; omega

theorem lev_mono_cons (a : Char) (u v : List Char) (d : Nat)
    (h : ∀ w : List Char, lev u w ≤ lev v w + d) :
    ∀ w : List Char, lev (a :: u) w ≤ lev (a :: v) w + d := by
  intro w
  induction w with
  | nil =>
      have h0 := h []
      simp [lev_nil_right] at *
      omega
  | cons z w ih =>
      have h1 := h (z :: w)
      have h3 := h w
      rw [lev_cons_cons, lev_cons_cons]
      by_cases hz : a = z
      · simp only [if_pos hz]; omega
      · simp only [if_neg hz]; omega

theorem lev_mid_ins_le (pre : List Char) :
    ∀ (c : Char) (post w : List Char),
      lev (pre ++ post) w ≤ lev (pre ++ c :: post) w + 1 := by
  induction pre with
  | nil =>
      intro c post w
      simpa using lev_cons_left_le post w c
  | cons a pre ih =>
      intro c post w
      simpa using lev_mono_cons a (pre ++ post) (pre ++ c :: post) 1
        (fun w' => ih c post w') w

theorem lev_mid_del_le (pre : List Char) :
    ∀ (c : Char) (post w : List Char),
      lev (pre ++ c :: post) w ≤ lev (pre ++ post) w + 1 := by
  induction pre with
  | nil =>
      intro c post w
      simpa using lev_le_cons_left post w c
  | cons a pre ih =>
      intro c post w
      simpa using lev_mono_cons a (pre ++ c :: post) (pre ++ post) 1
        (fun w' => ih c post w') w

theorem lev_mid_subst_le (pre : List Char) :
    ∀ (c c' : Char) (post w : List Char),
      lev (pre ++ c :: post) w ≤ lev (pre ++ c' :: post) w + 1 := by
  induction pre with
  | nil =>
      intro c c' post w
      simpa using lev_subst_head_le post c c' w
  | cons a pre ih =>
      intro c c' post w
      simpa using lev_mono_cons a (pre ++ c :: post) (pre ++ c' :: post) 1
        (fun w' => ih c c' post w') w

theorem lev_step_le {u v : List Char} (h : EditStep u v) :
    ∀ w : List Char, lev u w ≤ lev v w + 1 := by
  intro w
  cases h with
  | ins pre post c => exact lev_mid_ins_le pre c post w
  | del pre post c => exact lev_mid_del_le pre c post w
  | subst pre post c c' => exact lev_mid_subst_le pre c c' post w

/-! ### Edit chains: basic operations -/

theorem step_cons_congr {u v : List Char} (a : Char) (h : EditStep u v) :
    EditStep (a :: u) (a :: v) := by
  cases h with
  | ins pre post c => exact EditStep.ins (a :: pre) post c
  | del pre post c => exact EditStep.del (a :: pre) post c
  | subst pre post c c' => exact EditStep.subst (a :: pre) post c c'

theorem step_inv {u v : List Char} (h : EditStep u v) : EditStep v u := by
  cases h with
  | ins pre post c => exact EditStep.del pre post c
  | del pre post c => exact EditStep.ins pre post c
  | subst pre post c c' => exact EditStep.subst pre post c' c

theorem step_rev {u v : List Char} (h : EditStep u v) :
    EditStep u.reverse v.reverse := by
  cases h with
  | ins pre post c =>
      have := EditStep.ins post.reverse pre.reverse c
      simpa [List.reverse_append] using this
  | del pre post c =>
      have := EditStep.del post.reverse pre.reverse c
      simpa [List.reverse_append] using this
  | subst pre post c c' =>
      have := EditStep.subst post.reverse pre.reverse c c'
      simpa [List.reverse_append] using this

theorem StepChain.snoc {n : Nat} {u v w : List Char}
    (h : StepChain n u v) (e : EditStep v w) : StepChain (n + 1) u w := by
  induction h with
  | refl u => exact StepChain.step e (StepChain.refl w)
  | step e' _ ih => exact StepChain.step e' (ih e)

theorem StepChain.cast {m n : Nat} {u v : List Char} (h : m = n)
    (hc : StepChain m u v) : StepChain n u v := h ▸ hc

theorem StepChain.trans {m n : Nat} {u v w : List Char}
    (h1 : StepChain m u v) (h2 : StepChain n v w) : StepChain (m + n) u w := by
  induction h1 with
  | refl u => simpa using h2
  | step e _ ih =>
      refine StepChain.cast ?_ (StepChain.step e (ih h2))
      omega

theorem chain_cons_congr {n : Nat} {u v : List Char} (a : Char)
    (h : StepChain n u v) : StepChain n (a :: u) (a :: v) := by
  induction h with
  | refl u => exact StepChain.refl (a :: u)
  | step e _ ih => exact StepChain.step (step_cons_congr a e) ih

theorem chain_inv {n : Nat} {u v : List Char}
    (h : StepChain n u v) : StepChain n v u := by
  induction h with
  | refl u => exact StepChain.refl u
  | step e _ ih => exact StepChain.snoc ih (step_inv e)

theorem chain_rev {n : Nat} {u v : List Char}
    (h : StepChain n u v) : StepChain n u.reverse v.reverse := by
  induction h with
  | refl u => exact StepChain.refl u.reverse
  | step e _ ih => exact StepChain.step (step_rev e) ih

theorem chain_to_nil (u : List Char) : StepChain u.length u [] := by
  induction u with
  | nil => exact StepChain.refl []
  | cons x xs ih =>
      have hstep : EditStep (x :: xs) xs := by
        simpa using EditStep.del [] xs x
      simpa using StepChain.step hstep ih

theorem chain_from_nil (v : List Char) : StepChain v.length [] v :=
  chain_inv (chain_to_nil v)

/-! ### `lev` is the least edit-chain length -/

theorem chain_lev_le {n : Nat} {u v : List Char}
    (h : StepChain n u v) : lev u v ≤ n := by
  induction h with
  | refl u => simp [lev_self]
  | @step n u v w e hc ih =>
      have := lev_step_le e w
      omega

theorem lev_chain_aux :
    ∀ (N : Nat) (u v : List Char), u.length + v.length ≤ N →
      StepChain (lev u v) u v := by
  intro N
  induction N with
  | zero =>
      intro u v h
      have hu : u = [] := List.length_eq_zero.mp (by omega)
      have hv : v = [] := List.length_eq_zero.mp (by omega)
      subst hu; subst hv
      simpa [lev_nil_left] using StepChain.refl ([] : List Char)
  | succ N ih =>
      intro u v h
      cases u with
      | nil =>
          rw [lev_nil_left]
          exact chain_from_nil v
      | cons x xs =>
          cases v with
          | nil =>
              rw [lev_nil_right]
              exact chain_to_nil (x :: xs)
          | cons y ys =>
              have hlen : (x :: xs).length + (y :: ys).length ≤ N + 1 := h
              simp only [List.length_cons] at hlen
              rw [lev_cons_cons]
              rcases min_choice (lev xs (y :: ys) + 1)
                  (min (lev (x :: xs) ys + 1)
                    (lev xs ys + (if x = y then 0 else 1))) with h1 | h1
              · rw [h1]
                have hstep : EditStep (x :: xs) xs := by
                  simpa using EditStep.del [] xs x
                exact StepChain.step hstep
                  (ih xs (y :: ys) (by simp only [List.length_cons]; omega))
              · rw [h1]
                rcases min_choice (lev (x :: xs) ys + 1)
                    (lev xs ys + (if x = y then 0 else 1)) with h2 | h2
                · rw [h2]
                  have hstep : EditStep ys (y :: ys) := by
                    simpa using EditStep.ins [] ys y
                  exact StepChain.snoc
                    (ih (x :: xs) ys (by simp only [List.length_cons]; omega)) hstep
                · rw [h2]
                  by_cases hxy : x = y
                  · rw [if_pos hxy]
                    subst hxy
                    exact StepChain.cast (by omega)
                      (chain_cons_congr x (ih xs ys (by omega)))
                  · rw [if_neg hxy]
                    have hstep : EditStep (x :: xs) (y :: xs) := by
                      simpa using EditStep.subst [] xs x y
                    exact StepChain.step hstep
                      (chain_cons_congr y (ih xs ys (by omega)))

theorem lev_chain (u v : List Char) : StepChain (lev u v) u v :=
  lev_chain_aux (u.length + v.length) u v le_rfl

/-! ### Algebraic consequences for `lev` -/

theorem lev_symm (u v : List Char) : lev u v = lev v u :=
  Nat.le_antisymm (chain_lev_le (chain_inv (lev_chain v u)))
    (chain_lev_le (chain_inv (lev_chain u v)))

theorem lev_triangle (u v w : List Char) : lev u w ≤ lev u v + lev v w :=
  chain_lev_le (StepChain.trans (lev_chain u v) (lev_chain v w))

theorem lev_le_length_add (u v : List Char) : lev u v ≤ u.length + v.length :=
  chain_lev_le (StepChain.trans (chain_to_nil u) (chain_from_nil v))

theorem lev_rev (u v : List Char) : lev u.reverse v.reverse = lev u v := by
  apply Nat.le_antisymm
  · exact chain_lev_le (chain_rev (lev_chain u v))
  · have := chain_rev (lev_chain u.reverse v.reverse)
    rw [List.reverse_reverse, List.reverse_reverse] at this
    exact chain_lev_le this

theorem lev_eq_zero_iff (u v : List Char) : lev u v = 0 ↔ u = v := by
  constructor
  · intro h
    have hc := lev_chain u v
    rw [h] at hc
    cases hc with
    | refl u => rfl
  · intro h
    subst h
    exact lev_self u

/-! ### The rolling-row dynamic program computes `lev` -/

theorem levFlip_eq_lev (u v : List Char) : levFlip u v = lev u v := by
  rw [levFlip, lev_rev]

theorem levFlip_nil_right (p : List Char) : levFlip p [] = p.length := by
  simp [levFlip, lev_nil_right]

theorem levFlip_nil_left (q : List Char) : levFlip [] q = q.length := by
  simp [levFlip, lev_nil_left]

theorem levFlip_snoc (x y : Char) (r p : List Char) :
    levFlip (p ++ [x]) (r ++ [y]) =
      min (min (levFlip p (r ++ [y]) + 1) (levFlip (p ++ [x]) r + 1))
        (levFlip p r + (if x = y then 0 else 1)) := by
  simp only [levFlip, List.reverse_append, List.reverse_cons, List.reverse_nil,
    List.nil_append, List.singleton_append]
  rw [lev_cons_cons]
  by_cases hxy : x = y
  · simp only [if_pos hxy]; omega
  · simp only [if_neg hxy]; omega

theorem distRow_rowOf (x : Char) :
    ∀ (q r p : List Char),
      distRow x q (levFlip p r :: rowOf p r q) (levFlip (p ++ [x]) r) =
        rowOf (p ++ [x]) r q := by
  intro q
  induction q with
  | nil =>
      intro r p
      simp [distRow, rowOf]
  | cons y q ih =>
      intro r p
      rw [rowOf, distRow]
      simp only [List.headD_cons]
      rw [← levFlip_snoc x y r p, ih (r ++ [y]) p, rowOf]

theorem distLoop_rowOf (s2 : List Char) :
    ∀ (xs p : List Char),
      distLoop s2 xs p.length (levFlip p [] :: rowOf p [] s2) =
        levFlip (p ++ xs) [] :: rowOf (p ++ xs) [] s2 := by
  intro xs
  induction xs with
  | nil =>
      intro p
      simp [distLoop]
  | cons x rest ih =>
      intro p
      have hlen : p.length + 1 = levFlip (p ++ [x]) [] := by
        rw [levFlip_nil_right]; simp
      calc distLoop s2 (x :: rest) p.length (levFlip p [] :: rowOf p [] s2)
          = distLoop s2 rest (p.length + 1)
              ((p.length + 1) ::
                distRow x s2 (levFlip p [] :: rowOf p [] s2) (p.length + 1)) := by
            rw [distLoop]
        _ = distLoop s2 rest (p ++ [x]).length
              (levFlip (p ++ [x]) [] :: rowOf (p ++ [x]) [] s2) := by
            rw [hlen, distRow_rowOf x s2 [] p, levFlip_nil_right]
        _ = levFlip ((p ++ [x]) ++ rest) [] :: rowOf ((p ++ [x]) ++ rest) [] s2 :=
            ih (p ++ [x])
        _ = levFlip (p ++ x :: rest) [] :: rowOf (p ++ x :: rest) [] s2 := by
            simp [List.append_assoc]

theorem range_rowOf :
    ∀ (q r : List Char),
      List.range' r.length (q.length + 1) = levFlip [] r :: rowOf [] r q := by
  intro q
  induction q with
  | nil =>
      intro r
      simp [rowOf, levFlip_nil_left, List.range'_succ]
  | cons y q ih =>
      intro r
      rw [rowOf]
      rw [show (y :: q).length + 1 = (q.length + 1) + 1 from rfl]
      rw [List.range'_succ]
      have := ih (r ++ [y])
      simp only [List.length_append, List.length_cons, List.length_nil] at this
      rw [levFlip_nil_left]
      rw [show r.length + 1 + 0 = r.length + 1 from rfl] at this
      rw [← this]

theorem rowOf_getD :
    ∀ (q p r : List Char),
      (levFlip p r :: rowOf p r q).getD q.length 0 = levFlip p (r ++ q) := by
  intro q
  induction q with
  | nil =>
      intro p r
      simp
  | cons y q ih =>
      intro p r
      rw [rowOf]
      rw [show (y :: q).length = q.length + 1 from rfl]
      rw [List.getD_cons_succ]
      rw [ih p (r ++ [y])]
      simp

theorem levenshtein_distance_eq_lev (s1 s2 : String) :
    levenshtein_distance s1 s2 = lev s1.data s2.data := by
  simp only [levenshtein_distance]
  by_cases hm : s1.data.length = 0
  · have h1 : s1.data = [] := List.length_eq_zero.mp hm
    simp [hm, h1, lev_nil_left]
  · by_cases hn : s2.data.length = 0
    · have h2 : s2.data = [] := List.length_eq_zero.mp hn
      rw [if_neg hm, if_pos hn, h2, lev_nil_right]
    · rw [if_neg hm, if_neg hn]
      rw [List.range_eq_range']
      have h0 := range_rowOf s2.data []
      simp only [List.length_nil] at h0
      rw [h0]
      have h1 := distLoop_rowOf s2.data s1.data []
      simp only [List.length_nil, List.nil_append] at h1
      rw [h1]
      rw [rowOf_getD s2.data s1.data []]
      simp [levFlip_eq_lev]

/-! ### Characterizing the suggestion-selection loop -/

theorem findLoop_some_spec (input : String) (T : Nat) :
    ∀ (l : List String) (b : String),
      levenshtein_distance input b ≤ T →
      ∃ o, findLoop input T (some (b, levenshtein_distance input b)) l =
            some (o, levenshtein_distance input o) ∧
        levenshtein_distance input o ≤ T ∧
        ((o = b ∧ ∀ x ∈ l, levenshtein_distance input x ≤ T →
            levenshtein_distance input b ≤ levenshtein_distance input x)
         ∨ (∃ l1 l2, l = l1 ++ o :: l2 ∧
              levenshtein_distance input o < levenshtein_distance input b ∧
              (∀ x ∈ l1, levenshtein_distance input x ≤ T →
                levenshtein_distance input o < levenshtein_distance input x) ∧
              (∀ x ∈ l2, levenshtein_distance input x ≤ T →
                levenshtein_distance input o ≤ levenshtein_distance input x))) := by
  intro l
  induction l with
  | nil =>
      intro b hb
      refine ⟨b, ?_, hb, Or.inl ⟨rfl, by simp⟩⟩
      rw [findLoop]
  | cons c rest ih =>
      intro b hb
      by_cases hq : levenshtein_distance input c ≤ T
      · by_cases hlt : levenshtein_distance input c < levenshtein_distance input b
        · obtain ⟨o, heq, hoT, hdisj⟩ := ih c hq
          refine ⟨o, ?_, hoT, Or.inr ?_⟩
          · rw [findLoop]
            simp only [if_pos hq, if_pos hlt]
            exact heq
          · rcases hdisj with ⟨hob, hall⟩ | ⟨l1, l2, hsplit, hlt2, hstrict, hge⟩
            · subst hob
              exact ⟨[], rest, rfl, hlt, by simp, fun x hx hxT => hall x hx hxT⟩
            · refine ⟨c :: l1, l2, by rw [hsplit, List.cons_append], by omega, ?_, hge⟩
              intro x hx hxT
              rcases List.mem_cons.mp hx with hxc | hx1
              · subst hxc; omega
              · exact hstrict x hx1 hxT
        · obtain ⟨o, heq, hoT, hdisj⟩ := ih b hb
          refine ⟨o, ?_, hoT, ?_⟩
          · rw [findLoop]
            simp only [if_pos hq, if_neg hlt]
            exact heq
          · rcases hdisj with ⟨hob, hall⟩ | ⟨l1, l2, hsplit, hlt2, hstrict, hge⟩
            · refine Or.inl ⟨hob, ?_⟩
              intro x hx hxT
              rcases List.mem_cons.mp hx with hxc | hx1
              · subst hxc; omega
              · exact hall x hx1 hxT
            · refine Or.inr ⟨c :: l1, l2, by rw [hsplit, List.cons_append], hlt2, ?_, hge⟩
              intro x hx hxT
              rcases List.mem_cons.mp hx with hxc | hx1
              · subst hxc; omega
              · exact hstrict x hx1 hxT
      · obtain ⟨o, heq, hoT, hdisj⟩ := ih b hb
        refine ⟨o, ?_, hoT, ?_⟩
        · rw [findLoop]
          simp only [if_neg hq]
          exact heq
        · rcases hdisj with ⟨hob, hall⟩ | ⟨l1, l2, hsplit, hlt2, hstrict, hge⟩
          · refine Or.inl ⟨hob, ?_⟩
            intro x hx hxT
            rcases List.mem_cons.mp hx with hxc | hx1
            · subst hxc; exact absurd hxT hq
            · exact hall x hx1 hxT
          · refine Or.inr ⟨c :: l1, l2, by rw [hsplit, List.cons_append], hlt2, ?_, hge⟩
            intro x hx hxT
            rcases List.mem_cons.mp hx with hxc | hx1
            · subst hxc; exact absurd hxT hq
            · exact hstrict x hx1 hxT

theorem findLoop_none_spec (input : String) (T : Nat) :
    ∀ l : List String,
      (findLoop input T none l = none ∧
        ∀ x ∈ l, ¬ levenshtein_distance input x ≤ T)
      ∨ (∃ l1 l2 o, l = l1 ++ o :: l2 ∧
          findLoop input T none l = some (o, levenshtein_distance input o) ∧
          levenshtein_distance input o ≤ T ∧
          (∀ x ∈ l1, levenshtein_distance input x ≤ T →
            levenshtein_distance input o < levenshtein_distance input x) ∧
          (∀ x ∈ l, levenshtein_distance input x ≤ T →
            levenshtein_distance input o ≤ levenshtein_distance input x)) := by
  intro l
  induction l with
  | nil =>
      left
      exact ⟨by rw [findLoop], by simp⟩
  | cons c rest ih =>
      by_cases hq : levenshtein_distance input c ≤ T
      · right
        have hunfold : findLoop input T none (c :: rest) =
            findLoop input T (some (c, levenshtein_distance input c)) rest := by
          rw [findLoop]
          simp only [if_pos hq]
        obtain ⟨o, heq, hoT, hdisj⟩ := findLoop_some_spec input T rest c hq
        rcases hdisj with ⟨hob, hall⟩ | ⟨l1, l2, hsplit, hlt2, hstrict, hge⟩
        · subst hob
          refine ⟨[], rest, o, rfl, by rw [hunfold, heq], hoT, by simp, ?_⟩
          intro x hx hxT
          rcases List.mem_cons.mp hx with hxc | hx1
          · subst hxc; exact le_rfl
          · exact hall x hx1 hxT
        · refine ⟨c :: l1, l2, o, by rw [hsplit, List.cons_append],
            by rw [hunfold, heq], hoT, ?_, ?_⟩
          · intro x hx hxT
            rcases List.mem_cons.mp hx with hxc | hx1
            · subst hxc; exact hlt2
            · exact hstrict x hx1 hxT
          · intro x hx hxT
            rcases List.mem_cons.mp hx with hxc | hx1
            · subst hxc; omega
            · rw [hsplit] at hx1
              rcases List.mem_append.mp hx1 with hx2 | hx2
              · have := hstrict x hx2 hxT; omega
              · rcases List.mem_cons.mp hx2 with hxo | hx3
                · subst hxo; exact le_rfl
                · exact hge x hx3 hxT
      · have hunfold : findLoop input T none (c :: rest) =
            findLoop input T none rest := by
          rw [findLoop]
          simp only [if_neg hq]
        rcases ih with ⟨hnone, hall⟩ | ⟨l1, l2, o, hsplit, heq, hoT, hstrict, hall⟩
        · left
          refine ⟨by rw [hunfold, hnone], ?_⟩
          intro x hx
          rcases List.mem_cons.mp hx with hxc | hx1
          · subst hxc; exact hq
          · exact hall x hx1
        · right
          refine ⟨c :: l1, l2, o, by rw [hsplit, List.cons_append],
            by rw [hunfold, heq], hoT, ?_, ?_⟩
          · intro x hx hxT
            rcases List.mem_cons.mp hx with hxc | hx1
            · subst hxc; exact absurd hxT hq
            · exact hstrict x hx1 hxT
          · intro x hx hxT
            rcases List.mem_cons.mp hx with hxc | hx1
            · subst hxc; exact absurd hxT hq
            · exact hall x hx1 hxT

/-! ### Concrete scenarios from the specification -/

example : levenshtein_distance "kitten" "sitting" = 3 := by decide

example : levenshtein_distance "hello" "hello" = 0 := by decide

example : levenshtein_distance "" "" = 0 := by decide

example : levenshtein_distance "a" "" = 1 := by decide

example : levenshtein_distance "abc" "xyz" = 3 := by decide

example : find_best_suggestion "vacter" ["vector", "id", "name"] = some "vector" := by
  decide

example : find_best_suggestion "hello" ["vector", "id", "name"] = none := by
  decide

example : find_best_suggestion "v" ["vector", "id", "name"] = none := by
  decide

example : find_best_suggestion "vecor" ["vector", "vendor"] = some "vector" := by
  decide

/-! ### Claim theorems -/

/-- C1: for every pair of strings, `levenshtein_distance a b` is the minimum
number of single-character insertions, deletions, or substitutions (each
costing 1) transforming the Unicode-scalar-value sequence of `a` into that
of `b`: it is realized by some edit chain, and it is a lower bound on the
length of every edit chain.  (The result is a `Nat`, hence non-negative.) -/
theorem levenshtein_distance_min_edits (a b : String) :
    StepChain (levenshtein_distance a b) a.data b.data ∧
      ∀ n, StepChain n a.data b.data → levenshtein_distance a b ≤ n := by
  constructor
  · rw [levenshtein_distance_eq_lev]
    exact lev_chain a.data b.data
  · intro n hn
    rw [levenshtein_distance_eq_lev]
    exact chain_lev_le hn

/-- Witness for C1 at the concrete input `("ab", "b")` with the concrete
one-step deletion chain. -/
theorem levenshtein_distance_min_edits_app :
    levenshtein_distance "ab" "b" ≤ 1 := by
  refine (levenshtein_distance_min_edits "ab" "b").2 1 ?_
  have hstep : EditStep "ab".data "b".data := EditStep.del [] ['b'] 'a'
  exact StepChain.step hstep (StepChain.refl _)

/-- C2: for a non-empty input, `find_best_suggestion` returns `none`
exactly when no candidate is within `floor(|input| / 3)` of the input, and
when it returns a candidate, that candidate qualifies, has minimal
distance among all qualifying candidates, and every qualifying candidate
occurring earlier in the list has strictly larger distance (first
encountered wins on ties). -/
theorem find_best_suggestion_selects_first_min (input : String)
    (options : List String) (hne : input.data.length ≠ 0) :
    (find_best_suggestion input options = none ↔
      ∀ o ∈ options, input.data.length / 3 < levenshtein_distance input o) ∧
    ∀ o, find_best_suggestion input options = some o →
      ∃ l1 l2, options = l1 ++ o :: l2 ∧
        levenshtein_distance input o ≤ input.data.length / 3 ∧
        (∀ x ∈ options, levenshtein_distance input x ≤ input.data.length / 3 →
          levenshtein_distance input o ≤ levenshtein_distance input x) ∧
        (∀ x ∈ l1, levenshtein_distance input x ≤ input.data.length / 3 →
          levenshtein_distance input o < levenshtein_distance input x) := by
  simp only [find_best_suggestion]
  rw [if_neg hne]
  rcases findLoop_none_spec input (input.data.length / 3) options with
    ⟨hnone, hall⟩ | ⟨l1, l2, o', hsplit, heq, hoT, hstrict, hall⟩
  · constructor
    · rw [hnone]
      constructor
      · intro _ o ho
        have := hall o ho
        omega
      · intro _
        rfl
    · intro o h
      rw [hnone] at h
      simp at h
  · constructor
    · rw [heq]
      constructor
      · intro h
        simp at h
      · intro hforall
        have ho' : o' ∈ options := by
          rw [hsplit]
          simp
        have := hforall o' ho'
        omega
    · intro o h
      rw [heq] at h
      simp only [Option.map_some'] at h
      have ho : o' = o := Option.some.inj h
      subst ho
      exact ⟨l1, l2, hsplit, hoT, hall, hstrict⟩

/-- Witness for C2 at the concrete input `"hello"` with candidates
`["vector", "id", "name"]`. -/
theorem find_best_suggestion_selects_first_min_app :
    find_best_suggestion "hello" ["vector", "id", "name"] = none ↔
      ∀ o ∈ ["vector", "id", "name"],
        "hello".data.length / 3 < levenshtein_distance "hello" o :=
  (find_best_suggestion_selects_first_min "hello" ["vector", "id", "name"]
    (by decide)).1

/-- C3: whenever `find_best_suggestion` returns a candidate, the
Levenshtein distance between that candidate and the input is at most
`floor(|input| / 3)` (character count). -/
theorem find_best_suggestion_within_threshold (input : String)
    (options : List String) (o : String)
    (h : find_best_suggestion input options = some o) :
    levenshtein_distance o input ≤ input.data.length / 3 := by
  by_cases hne : input.data.length = 0
  · rw [find_best_suggestion, if_pos hne] at h
    simp at h
  · simp only [find_best_suggestion] at h
    rw [if_neg hne] at h
    rcases findLoop_none_spec input (input.data.length / 3) options with
      ⟨hnone, _⟩ | ⟨l1, l2, o', hsplit, heq, hoT, _, _⟩
    · rw [hnone] at h
      simp at h
    · rw [heq] at h
      simp only [Option.map_some'] at h
      have ho : o' = o := Option.some.inj h
      subst ho
      rw [levenshtein_distance_eq_lev] at hoT ⊢
      rw [lev_symm]
      exact hoT

/-- Witness for C3 at the concrete input `"vacter"` with candidates
`["vector", "id", "name"]`. -/
theorem find_best_suggestion_within_threshold_app :
    levenshtein_distance "vector" "vacter" ≤ "vacter".data.length / 3 :=
  find_best_suggestion_within_threshold "vacter" ["vector", "id", "name"]
    "vector" (by decide)

/-- C4: `find_best_suggestion` returns the ordinary "no suggestion" value
`none` on an empty candidate list (for any input) and on an input with
character count 0 (for any candidates); there is no separate error path —
the return type `Option String` has no error constructor. -/
theorem find_best_suggestion_empty_cases (input : String)
    (options : List String) :
    find_best_suggestion input [] = none ∧
      (input.data.length = 0 → find_best_suggestion input options = none) := by
  constructor
  · by_cases hne : input.data.length = 0
    · rw [find_best_suggestion, if_pos hne]
    · simp only [find_best_suggestion]
      rw [if_neg hne, findLoop]
      rfl
  · intro h
    rw [find_best_suggestion, if_pos h]

/-- Witness for C4 at the concrete empty input with a non-empty candidate
list. -/
theorem find_best_suggestion_empty_cases_app :
    find_best_suggestion "" ["a"] = none :=
  (find_best_suggestion_empty_cases "" ["a"]).2 rfl

/-- C5: the distance from the empty string to `s` (either way round) is the
number of Unicode scalar values of `s` — a character count, not a byte
count. -/
theorem levenshtein_distance_empty (s : String) :
    levenshtein_distance "" s = s.data.length ∧
      levenshtein_distance s "" = s.data.length := by
  constructor
  · rw [levenshtein_distance_eq_lev]
    exact lev_nil_left s.data
  · rw [levenshtein_distance_eq_lev]
    exact lev_nil_right s.data

/-- C6: `levenshtein_distance` is symmetric. -/
theorem levenshtein_distance_symm (a b : String) :
    levenshtein_distance a b = levenshtein_distance b a := by
  rw [levenshtein_distance_eq_lev, levenshtein_distance_eq_lev, lev_symm]

/-- C7: `levenshtein_distance` satisfies the triangle inequality. -/
theorem levenshtein_distance_triangle (a b c : String) :
    levenshtein_distance a c ≤
      levenshtein_distance a b + levenshtein_distance b c := by
  rw [levenshtein_distance_eq_lev, levenshtein_distance_eq_lev,
    levenshtein_distance_eq_lev]
  exact lev_triangle a.data b.data c.data

/-- C8: `levenshtein_distance a b` is at most the sum of the character
counts of `a` and `b`. -/
theorem levenshtein_distance_le_sum_lengths (a b : String) :
    levenshtein_distance a b ≤ a.data.length + b.data.length := by
  rw [levenshtein_distance_eq_lev]
  exact lev_le_length_add a.data b.data

/-- C9: the distance from any string to itself is 0. -/
theorem levenshtein_distance_self (s : String) :
    levenshtein_distance s s = 0 := by
  rw [levenshtein_distance_eq_lev]
  exact lev_self s.data

/-- C10: the distance is 0 exactly when the two strings have identical
Unicode-scalar-value sequences, so a returned 0 certifies an exact match. -/
theorem levenshtein_distance_eq_zero_iff (a b : String) :
    levenshtein_distance a b = 0 ↔ a.data = b.data := by
  rw [levenshtein_distance_eq_lev]
  exact lev_eq_zero_iff a.data b.data

end LanceLev
